import Mathlib

/-!
A shallow embedding of `epub2audio.py` covering: the filename sanitizer
(`sanitize_filename`, lines 18-21), title inference (`guess_title`,
lines 34-48), chapter extraction (`extract_chapters`, lines 51-124), the
retry/backoff loop (`synthesize_with_retry`, lines 167-192), and the
orchestrator's written-file / playlist assembly (`main` lines 261-321 and
`build_playlist` lines 195-199).

Markup parsing (BeautifulSoup) is treated as an external collaborator, as
in the design: each content unit carries the probe results the program
extracts from its markup (title string, first h1/h2/h3 text, the headings
matching the configured split markers with their normalized section text,
and the normalized whole-document text).
-/

/-- Python regex whitespace class (its ASCII part), as matched by
`re.sub(r"\s+", " ", name)` and stripped by `str.strip()`. -/
def isPySpace (c : Char) : Bool :=
  c == ' ' || c == '\t' || c == '\n' || c == '\r' || c == Char.ofNat 11 || c == Char.ofNat 12

/-- `re.sub(r"\s+", " ", name)`: each maximal whitespace run becomes one space. -/
def collapseWS : List Char → List Char
  | [] => []
  | [c] => if isPySpace c then [' '] else [c]
  | c :: d :: cs =>
    if isPySpace c then
      if isPySpace d then collapseWS (d :: cs) else ' ' :: collapseWS (d :: cs)
    else c :: collapseWS (d :: cs)

/-- Remove trailing whitespace (right half of `str.strip()`). -/
def dropTrailingWS : List Char → List Char
  | [] => []
  | c :: cs =>
    match dropTrailingWS cs with
    | [] => if isPySpace c then [] else [c]
    | t => c :: t

/-- `str.strip()`: drop leading and trailing whitespace. -/
def stripWS (l : List Char) : List Char :=
  dropTrailingWS (l.dropWhile isPySpace)

/-- The path-hostile characters of the character class at line 20. -/
def isBadChar (c : Char) : Bool :=
  c == '\\' || c == '/' || c == ':' || c == '*' || c == '?' || c == '\"' ||
    c == '<' || c == '>' || c == '|'

/-- One step of `re.sub(r"[\\/:*?\"<>|]", "_", name)`. -/
def badRepl (c : Char) : Char := if isBadChar c then '_' else c

/-- `sanitize_filename` (lines 18-21): collapse whitespace, strip, replace
path-hostile characters with underscores, truncate to 150 characters, and
substitute the default name if the result is empty. -/
def sanitize_filename (s : String) : String :=
  let l := ((stripWS (collapseWS s.toList)).map badRepl).take 150
  if l.isEmpty then "untitled" else String.mk l

/-- No two adjacent characters are both whitespace ("collapsed internal
whitespace"). -/
def noTwoWS : List Char → Bool
  | [] => true
  | [_] => true
  | a :: b :: t => !(isPySpace a && isPySpace b) && noTwoWS (b :: t)

/-- `str.strip()` on a `String`. -/
def pyStrip (s : String) : String := String.mk (stripWS s.toList)

/-- `Path(name).stem`: the final path component without its last extension
(a leading dot or a trailing dot does not count as an extension). -/
def stemOf (s : String) : String :=
  let base := (s.toList.reverse.takeWhile (fun c => c != '/')).reverse
  let j := base.reverse.findIdx (fun c => c == '.')
  if j = 0 ∨ base.length - 1 ≤ j then String.mk base
  else String.mk (base.take (base.length - 1 - j))

/-- `Path(item.file_name).stem.replace("_", " ")` (line 48): the
filename-derived fallback title. -/
def stemSpaces (file_name : String) : String :=
  String.mk ((stemOf file_name).toList.map (fun c => if c == '_' then ' ' else c))

/-- Probe results of the parsed markup of one content unit, holding
exactly what `guess_title` reads off the soup: `soup.title.string`
(`none` when the title tag is absent or has no string), and the stripped
text of the first h1/h2/h3 element (`some ""` when the element exists but
has no text, `none` when it is absent). -/
structure Soup where
  titleString : Option String
  h1 : Option String
  h2 : Option String
  h3 : Option String
deriving DecidableEq

/-- A heading found by `soup.find_all(split_on)` (line 80), with the
normalized text of its following-sibling section (the `html_to_text` of
the buffer collected at lines 85-91). -/
structure Heading where
  text : String
  sectionText : String
deriving DecidableEq

/-- One content unit (ebooklib document item): its identifier plus the
abstracted parse results the extractor consumes. `parseOk = false` models
`BeautifulSoup(item.get_content(), ...)` raising inside `guess_title`
(caught at line 45). `wholeText` is `html_to_text` of the whole unit. -/
structure Item where
  file_name : String
  parseOk : Bool
  soup : Soup
  headings : List Heading
  wholeText : String
deriving DecidableEq

/-- Python truthiness filter for `if h and h.get_text(strip=True)`. -/
def headProbe (o : Option String) : Option String :=
  match o with
  | some t => if t = "" then none else some t
  | none => none

/-- The `for hn in ["h1", "h2", "h3"]` probe loop at lines 41-44. -/
def hCascade (s : Soup) : Option String :=
  (headProbe s.h1).orElse fun _ => (headProbe s.h2).orElse fun _ => headProbe s.h3

/-- Lines 38-44: the title tag's string when truthy (stripped), else the
heading cascade. -/
def titleFromSoup (s : Soup) : Option String :=
  match s.titleString with
  | some t => if t ≠ "" then some (pyStrip t) else hCascade s
  | none => hCascade s

/-- `guess_title` (lines 34-48). Total: every branch returns a string;
a parse failure falls through to the filename-derived title. -/
def guess_title (it : Item) : String :=
  match (if it.parseOk then titleFromSoup it.soup else none) with
  | some t => t
  | none => stemSpaces it.file_name

/-- The first heading found among levels 1-3 that has non-empty text,
worded as in the spec's title-inference contract. -/
def firstHeading123 (s : Soup) : Option String :=
  ([s.h1, s.h2, s.h3].filterMap headProbe).head?

/-- Title inference as worded in the spec: (1) the unit's declared title
metadata if non-empty, otherwise (2) the first heading among levels 1-3
with non-empty text, otherwise (3) the filename-derived title; any
internal parse error falls through to (3). Stated from the spec for the
refinement claim C7. -/
def infer_title_spec (it : Item) : String :=
  if it.parseOk = false then stemSpaces it.file_name
  else
    match it.soup.titleString with
    | some t =>
      if t ≠ "" then pyStrip t else (firstHeading123 it.soup).getD (stemSpaces it.file_name)
    | none => (firstHeading123 it.soup).getD (stemSpaces it.file_name)

/-- The extractor's unit of output (lines 95-99 / 108-112). -/
structure Chapter where
  order : Nat
  title : String
  text : String
deriving DecidableEq

/-- The parsed container: the resolved spine file names (the
`spine_order` list built at lines 55-62, references that fail to resolve
or are non-documents already skipped) and the document items (line 65). -/
structure Book where
  spineNames : List String
  docs : List Item

/-- Python dict insertion: a first occurrence of a key keeps its position,
a later duplicate key overwrites the value in place. -/
def dictInsert (m : List Item) (it : Item) : List Item :=
  if m.any (fun j => j.file_name == it.file_name) then
    m.map (fun j => if j.file_name == it.file_name then it else j)
  else m ++ [it]

/-- The dict comprehension at line 65 (file_name -> item), as its value
list in insertion order. -/
def dictOf (docs : List Item) : List Item := docs.foldl dictInsert []

/-- `docs.get(fname)` (line 71). -/
def docsGet (docs : List Item) (f : String) : Option Item :=
  (dictOf docs).find? (fun it => it.file_name == f)

/-- The positional label of line 94. -/
def secLabel (i : Nat) : String := "Section " ++ Nat.repr i

/-- The per-heading section loop, lines 83-100: `i` counts headings from 1
(`enumerate(headings, start=1)`), `ord` is the next chapter order; a
section whose normalized text is empty is skipped without consuming an
order number. -/
def emitSections (hs : List Heading) (i : Nat) (ord : Nat) : List Chapter :=
  match hs with
  | [] => []
  | h :: rest =>
    if h.sectionText = "" then emitSections rest (i + 1) ord
    else
      { order := ord, title := if h.text = "" then secLabel i else h.text, text := h.sectionText }
        :: emitSections rest (i + 1) (ord + 1)

/-- The whole-document fallback chapter of lines 105-113. -/
def wholeChapter (it : Item) (ord : Nat) : Chapter :=
  { order := ord, title := guess_title it, text := it.wholeText }

/-- Python truthiness of `chapters and chapters[-1]["title"]` (line 102). -/
def lastTitleTruthy (l : List Chapter) : Bool :=
  match l.getLast? with
  | some c => c.title != ""
  | none => false

/-- Processing of one resolved, unseen spine item (lines 76-113), on the
state (chapters emitted so far, next order). When split markers are
configured and the item has matching headings, the heading sections are
emitted and the whole-unit fallback runs only if the guard
`order > 0 and chapters and chapters[-1]["title"]` (line 102) fails;
otherwise the whole-unit fallback runs unconditionally. -/
def processItem (so : Bool) (it : Item) (st : List Chapter × Nat) : List Chapter × Nat :=
  if so ∧ it.headings ≠ [] then
    let secs := emitSections it.headings 1 st.2
    let ch := st.1 ++ secs
    let ord := st.2 + secs.length
    if 0 < ord ∧ lastTitleTruthy ch then (ch, ord)
    else (ch ++ [wholeChapter it ord], ord + 1)
  else (st.1 ++ [wholeChapter it st.2], st.2 + 1)

/-- The spine loop of lines 70-113: `seen` is the dedup set; a name that
does not resolve or was already processed is skipped. -/
def exLoop (docs : List Item) (so : Bool) :
    List String → List String → List Chapter × Nat → List Chapter × Nat
  | [], _, st => st
  | f :: fs, seen, st =>
    match docsGet docs f with
    | none => exLoop docs so fs seen st
    | some it =>
      if f ∈ seen then exLoop docs so fs seen st
      else exLoop docs so fs (f :: seen) (processItem so it st)

/-- `extract_chapters` (lines 51-124). The spine-resolution prologue
(lines 52-62) is abstracted into `Book.spineNames`; `so` is the
truthiness of `split_on`. When the spine loop emitted nothing, the raw
document collection is enumerated instead (lines 116-122). -/
def extract_chapters (bk : Book) (so : Bool) : List Chapter :=
  let st := exLoop bk.docs so bk.spineNames [] ([], 0)
  if st.1 = [] then
    (dictOf bk.docs).enum.map
      (fun p => { order := p.1, title := guess_title p.2, text := p.2.wholeText })
  else st.1

/-- Reading order with later duplicate identifiers removed (first
occurrence kept) relative to an already-seen set. -/
def dedupFirstAux : List String → List String → List String
  | [], _ => []
  | f :: fs, seen =>
    if f ∈ seen then dedupFirstAux fs seen else f :: dedupFirstAux fs (f :: seen)

/-- Reading order with later duplicate identifiers removed. -/
def dedupFirst (fs : List String) : List String := dedupFirstAux fs []

/-- Outcome of one `synthesize_with_retry` call: whether it returned
`True` (`ok = false` models the re-raise at line 191), how many synthesis
attempts ran, and the list of backoff sleeps performed, in order. -/
structure RetryResult where
  ok : Bool
  attempts : Nat
  sleeps : List ℚ
deriving DecidableEq

/-- The `while True` loop of lines 180-192. `backend n = true` iff the
n-th synthesis attempt (0-based) succeeds; `n` is the index of the
attempt about to run and `fuel` the number of attempts still allowed
(`max_retries + 1` initially, so the `fuel = 0` branch is unreachable
from `synthesize_with_retry`). After a failed attempt `n` the loop sleeps
`wait * 2 ^ n` (code: `retry_wait * (2 ** (attempt - 1))` with
`attempt = n + 1`), unless that failure exhausted the allowance, in which
case the exception is re-raised with no sleep. -/
def retryLoop (backend : Nat → Bool) (wait : ℚ) : Nat → Nat → RetryResult
  | _, 0 => { ok := false, attempts := 0, sleeps := [] }
  | n, fuel + 1 =>
    if backend n then { ok := true, attempts := 1, sleeps := [] }
    else if fuel = 0 then { ok := false, attempts := 1, sleeps := [] }
    else
      let r := retryLoop backend wait (n + 1) fuel
      { ok := r.ok, attempts := r.attempts + 1, sleeps := wait * 2 ^ n :: r.sleeps }

/-- `synthesize_with_retry` (lines 167-192), abstracted over the backend
outcome per attempt. -/
def synthesize_with_retry (backend : Nat → Bool) (max_retries : Nat) (retry_wait : ℚ) :
    RetryResult :=
  retryLoop backend retry_wait 0 (max_retries + 1)

/-- A render task of the orchestrator (line 275). -/
structure RTask where
  idx : Nat
  title : String
  text : String
  fname : String
deriving DecidableEq

/-- `f"{idx:03d}"`. -/
def pad3 (n : Nat) : String :=
  let s := Nat.repr n
  if s.length < 3 then String.mk (List.replicate (3 - s.length) '0') ++ s else s

/-- `ch["title"] or f"Chapter {idx}"` (line 267). -/
def chapTitle (idx : Nat) (c : Chapter) : String :=
  if c.title = "" then "Chapter " ++ Nat.repr idx else c.title

/-- `f"{idx:03d} - {safe_title}.mp3"` (lines 268-269). -/
def chapFname (idx : Nat) (c : Chapter) : String :=
  pad3 idx ++ " - " ++ sanitize_filename (chapTitle idx c) ++ ".mp3"

/-- The task-preparation loop of lines 265-275: a chapter whose
destination file already exists goes straight into `written` (in chapter
order, no synthesis, no tag write); the others become render tasks. `fe`
is `out_path.exists()` on the destination file name. -/
def prepGo (fe : String → Bool) : List Chapter → Nat → List String × List RTask
  | [], _ => ([], [])
  | c :: cs, idx =>
    let f := chapFname idx c
    let r := prepGo fe cs (idx + 1)
    if fe f then (f :: r.1, r.2)
    else (r.1, { idx := idx, title := chapTitle idx c, text := c.text, fname := f } :: r.2)

/-- Task preparation over the filtered chapter list, indices from 1. -/
def prepTasks (chapters : List Chapter) (fe : String → Bool) : List String × List RTask :=
  prepGo fe chapters 1

/-- The final `written` list (lines 296-313): the pre-existing skipped
files first (in chapter order), then the tasks in the order they
completed (`as_completed` order when parallel, task order when serial),
keeping only tasks whose synthesis succeeded; a permanently failed task
contributes nothing. `ok i` tells whether the task with index `i`
eventually succeeds. -/
def runWritten (w0 : List String) (completed : List RTask) (ok : Nat → Bool) : List String :=
  w0 ++ (completed.filter (fun t => ok t.idx)).map (fun t => t.fname)

/-- `build_playlist` (lines 195-199) under the `if written:` guard of
line 315: the playlist file holds one name per line, in `written` list
order; no playlist is written when `written` is empty. -/
def playlistLines (written : List String) : Option (List String) :=
  if written = [] then none else some written

/-- A soup with no title tag and no headings. -/
def soupEmpty : Soup := { titleString := none, h1 := none, h2 := none, h3 := none }

/-- First unit of the C2 failing input: one h2 heading with text and a
non-empty section. -/
def c2ItemA : Item :=
  { file_name := "a.xhtml", parseOk := true, soup := soupEmpty,
    headings := [{ text := "Intro", sectionText := "intro text" }], wholeText := "whole a" }

/-- Second unit of the C2 failing input: one matching heading whose
section normalizes to empty, while the whole unit's text is non-empty. -/
def c2ItemB : Item :=
  { file_name := "b.xhtml", parseOk := true, soup := soupEmpty,
    headings := [{ text := "Ghost", sectionText := "" }], wholeText := "whole b" }

/-- The C2 failing container: two spine documents, split markers on. -/
def c2Book : Book := { spineNames := ["a.xhtml", "b.xhtml"], docs := [c2ItemA, c2ItemB] }

/-- A unit whose whole-document normalization is empty. -/
def c3Item : Item :=
  { file_name := "e.xhtml", parseOk := true, soup := soupEmpty, headings := [],
    wholeText := "" }

/-- The C3 counterexample container. -/
def c3Book : Book := { spineNames := ["e.xhtml"], docs := [c3Item] }

/-- A one-document container with non-empty whole text (C3 witness). -/
def c3wBook : Book :=
  { spineNames := ["w2.xhtml"],
    docs := [{ file_name := "w2.xhtml", parseOk := true, soup := soupEmpty, headings := [],
               wholeText := "hello" }] }

/-- A one-document container (C4 witness). -/
def c4Book : Book :=
  { spineNames := ["w.xhtml"],
    docs := [{ file_name := "w.xhtml", parseOk := true, soup := soupEmpty, headings := [],
               wholeText := "hello world" }] }

/-- Chapters for the C1 counterexample run. -/
def c1Chapters : List Chapter :=
  [{ order := 0, title := "A", text := "aaa" }, { order := 1, title := "B", text := "bbb" }]

/-- File-existence oracle for the C1 counterexample run: chapter 2's
destination file is already present. -/
def c1Fe : String → Bool := fun f => f == "002 - B.mp3"

/-- Chapters for the C1 witness run. -/
def c1wChapters : List Chapter := [{ order := 0, title := "A", text := "aaa" }]

/-- Chapters for the C8 witness run. -/
def c8Chapters : List Chapter :=
  [{ order := 0, title := "A", text := "aaa" }, { order := 1, title := "B", text := "bbb" }]

/-- File-existence oracle for the C8 witness run. -/
def c8Fe : String → Bool := fun f => f == "002 - B.mp3"

/-- A backend stub failing the first two attempts, then succeeding. -/
def c6backend : Nat → Bool := fun n => decide (2 ≤ n)

/-- Input whose collapsed, stripped form is 151 characters long with a
space at position 150 (1-based): 149 letters, a space, a letter. -/
def c9input : String := String.mk (List.replicate 149 'a' ++ [' ', 'b'])

/-! ### Lemmas about the sanitizer -/

theorem noTwoWS_cons (a : Char) (l : List Char) :
    noTwoWS (a :: l) = true ↔
      (∀ b, l.head? = some b → (isPySpace a && isPySpace b) = false) ∧ noTwoWS l = true := by
  cases l with
  | nil => simp [noTwoWS]
  | cons b t =>
    show (!(isPySpace a && isPySpace b) && noTwoWS (b :: t)) = true ↔ _
    constructor
    · intro h
      simp only [Bool.and_eq_true, Bool.not_eq_true'] at h
      exact ⟨fun b' hb' => by cases hb'; exact h.1, h.2⟩
    · intro ⟨h1, h2⟩
      simp only [Bool.and_eq_true, Bool.not_eq_true']
      exact ⟨h1 b rfl, h2⟩

theorem noTwoWS_tail (a : Char) (l : List Char) (h : noTwoWS (a :: l) = true) :
    noTwoWS l = true :=
  ((noTwoWS_cons a l).mp h).2

theorem collapseWS_head (d : Char) (cs : List Char) (hd : isPySpace d = false) :
    (collapseWS (d :: cs)).head? = some d := by
  cases cs with
  | nil => simp [collapseWS, hd]
  | cons e cs' => simp [collapseWS, hd]

theorem noTwoWS_collapseWS : ∀ l : List Char, noTwoWS (collapseWS l) = true
  | [] => by simp [collapseWS, noTwoWS]
  | [c] => by by_cases h : isPySpace c <;> simp [collapseWS, h, noTwoWS]
  | c :: d :: cs => by
    by_cases hc : isPySpace c
    · by_cases hd : isPySpace d
      · simpa [collapseWS, hc, hd] using noTwoWS_collapseWS (d :: cs)
      · have hrec := noTwoWS_collapseWS (d :: cs)
        have hhead := collapseWS_head d cs (by simpa using hd)
        simp only [collapseWS, hc, hd, if_true, if_false, Bool.false_eq_true]
        rw [noTwoWS_cons]
        refine ⟨fun b hb => ?_, hrec⟩
        rw [hhead] at hb
        cases hb
        simp [hd]
    · have hrec := noTwoWS_collapseWS (d :: cs)
      simp only [collapseWS, hc, Bool.false_eq_true, if_false]
      rw [noTwoWS_cons]
      exact ⟨fun b _ => by simp [hc], hrec⟩

theorem noTwoWS_dropWhile (p : Char → Bool) :
    ∀ l : List Char, noTwoWS l = true → noTwoWS (l.dropWhile p) = true := by
  intro l
  induction l with
  | nil => intro h; simpa using h
  | cons a t ih =>
    intro h
    by_cases hp : p a
    · rw [List.dropWhile_cons_of_pos hp]
      exact ih (noTwoWS_tail a t h)
    · rwa [List.dropWhile_cons_of_neg hp]

theorem dropTrailingWS_head :
    ∀ l : List Char, dropTrailingWS l ≠ [] → (dropTrailingWS l).head? = l.head? := by
  intro l
  match l with
  | [] => intro hne; simp [dropTrailingWS] at hne
  | c :: cs =>
    intro hne
    simp only [dropTrailingWS] at hne ⊢
    cases h : dropTrailingWS cs with
    | nil =>
      by_cases hc : isPySpace c
      · simp [h, hc] at hne
      · simp [hc]
    | cons x t => simp

theorem noTwoWS_dropTrailingWS :
    ∀ l : List Char, noTwoWS l = true → noTwoWS (dropTrailingWS l) = true := by
  intro l
  induction l with
  | nil => intro h; simpa [dropTrailingWS] using h
  | cons c cs ih =>
    intro h
    simp only [dropTrailingWS]
    cases hd : dropTrailingWS cs with
    | nil =>
      by_cases hc : isPySpace c <;> simp [hc, noTwoWS]
    | cons x t =>
      have htail : noTwoWS (x :: t) = true := by
        rw [← hd]; exact ih (noTwoWS_tail c cs h)
      have hxhead : cs.head? = some x := by
        rw [← dropTrailingWS_head cs (by rw [hd]; exact (List.cons_ne_nil x t)), hd]
        rfl
      have hpair : (isPySpace c && isPySpace x) = false :=
        ((noTwoWS_cons c cs).mp h).1 x hxhead
      rw [noTwoWS_cons]
      exact ⟨fun b hb => by cases hb; exact hpair, htail⟩

theorem dropTrailingWS_getLast :
    ∀ l : List Char, ∀ c, (dropTrailingWS l).getLast? = some c → isPySpace c = false := by
  intro l
  induction l with
  | nil => intro c hc; simp [dropTrailingWS] at hc
  | cons a cs ih =>
    intro c hc
    simp only [dropTrailingWS] at hc
    cases hd : dropTrailingWS cs with
    | nil =>
      rw [hd] at hc
      by_cases ha : isPySpace a
      · simp [ha] at hc
      · simp [ha] at hc
        cases hc
        simpa using ha
    | cons x t =>
      rw [hd] at hc
      rw [List.getLast?_cons_cons] at hc
      exact ih c (by rw [hd]; exact hc)

theorem head_dropWhileWS :
    ∀ l : List Char, ∀ a, (l.dropWhile isPySpace).head? = some a → isPySpace a = false := by
  intro l
  induction l with
  | nil => intro a ha; simp at ha
  | cons c cs ih =>
    intro a ha
    by_cases hc : isPySpace c
    · rw [List.dropWhile_cons_of_pos hc] at ha
      exact ih a ha
    · rw [List.dropWhile_cons_of_neg hc] at ha
      cases ha
      simpa using hc

theorem stripWS_head (l : List Char) (a : Char)
    (h : (stripWS l).head? = some a) : isPySpace a = false := by
  have hne : stripWS l ≠ [] := by
    intro h0
    rw [h0] at h
    simp at h
  unfold stripWS at h hne
  rw [dropTrailingWS_head _ hne] at h
  exact head_dropWhileWS l a h

theorem stripWS_getLast (l : List Char) (c : Char)
    (h : (stripWS l).getLast? = some c) : isPySpace c = false :=
  dropTrailingWS_getLast _ c h

theorem noTwoWS_stripWS (l : List Char) (h : noTwoWS l = true) :
    noTwoWS (stripWS l) = true :=
  noTwoWS_dropTrailingWS _ (noTwoWS_dropWhile isPySpace l h)

theorem isBadChar_badRepl (c : Char) : isBadChar (badRepl c) = false := by
  by_cases h : isBadChar c
  · simp only [badRepl, h, if_true]
    decide
  · simp [badRepl, h]

theorem isPySpace_badRepl (c : Char) : isPySpace (badRepl c) = isPySpace c := by
  by_cases h : isBadChar c
  · simp only [badRepl, h, if_true]
    simp only [isBadChar, Bool.or_eq_true, beq_iff_eq] at h
    rcases h with ((((((((h | h) | h) | h) | h) | h) | h) | h) | h) <;> subst h <;> decide
  · simp [badRepl, h]

theorem noTwoWS_map_badRepl :
    ∀ l : List Char, noTwoWS l = true → noTwoWS (l.map badRepl) = true
  | [] => by simp
  | [a] => by simp [noTwoWS]
  | a :: b :: t => by
    intro h
    have hrec := noTwoWS_map_badRepl (b :: t) (noTwoWS_tail a _ h)
    have hpair : (isPySpace a && isPySpace b) = false := ((noTwoWS_cons a _).mp h).1 b rfl
    show (!(isPySpace (badRepl a) && isPySpace (badRepl b)) &&
        noTwoWS (badRepl b :: t.map badRepl)) = true
    rw [isPySpace_badRepl, isPySpace_badRepl, hpair]
    simpa using hrec

theorem noTwoWS_take :
    ∀ (n : Nat) (l : List Char), noTwoWS l = true → noTwoWS (l.take n) = true
  | 0, _, _ => by simp [noTwoWS]
  | _ + 1, [], _ => by simp [noTwoWS]
  | _ + 1, [a], _ => by simp [noTwoWS]
  | n + 1, a :: b :: t, h => by
    cases n with
    | zero => simp [noTwoWS]
    | succ m =>
      have hrec := noTwoWS_take (m + 1) (b :: t) (noTwoWS_tail a _ h)
      have hpair : (isPySpace a && isPySpace b) = false := ((noTwoWS_cons a _).mp h).1 b rfl
      show (!(isPySpace a && isPySpace b) && noTwoWS (b :: t.take m)) = true
      rw [hpair]
      simpa using hrec

theorem getLast?_map_badRepl :
    ∀ l : List Char, (l.map badRepl).getLast? = l.getLast?.map badRepl
  | [] => rfl
  | [a] => rfl
  | a :: b :: t => by
    show (badRepl a :: badRepl b :: t.map badRepl).getLast? = _
    rw [List.getLast?_cons_cons, List.getLast?_cons_cons]
    exact getLast?_map_badRepl (b :: t)

theorem head?_take150 (l : List Char) : (l.take 150).head? = l.head? := by
  cases l <;> rfl

set_option maxRecDepth 8000 in
/-- Claim C9 counterexample: on an input whose collapsed, stripped form is
151 characters with a space at (1-based) position 150, `sanitize_filename`
returns a string whose last character is a whitespace character — the
truncation to 150 characters happens after stripping, so the claimed
"no trailing whitespace" property fails. -/
theorem c9_counterexample :
    (sanitize_filename c9input).toList.getLast? = some ' ' ∧ isPySpace ' ' = true := by
  constructor
  · decide
  · decide

/-- Claim C9 (amended): for every input string, `sanitize_filename`
returns a string of length at most 150 containing none of the
path-hostile characters, with collapsed internal whitespace (no two
adjacent whitespace characters) and no leading whitespace; it has no
trailing whitespace provided the collapsed, stripped text is at most 150
characters long (truncation can otherwise expose a trailing space), and
it equals the fixed default name "untitled" when the sanitized result
would otherwise be empty. -/
theorem c9_amended : ∀ s : String,
    (sanitize_filename s).toList.length ≤ 150 ∧
    (∀ c ∈ (sanitize_filename s).toList, isBadChar c = false) ∧
    noTwoWS (sanitize_filename s).toList = true ∧
    (∀ c, (sanitize_filename s).toList.head? = some c → isPySpace c = false) ∧
    ((stripWS (collapseWS s.toList)).length ≤ 150 →
      ∀ c, (sanitize_filename s).toList.getLast? = some c → isPySpace c = false) ∧
    (stripWS (collapseWS s.toList) = [] → sanitize_filename s = "untitled") := by
  intro s
  by_cases hm0 : stripWS (collapseWS s.toList) = []
  · have hr : sanitize_filename s = "untitled" := by
      simp only [sanitize_filename, hm0, List.map_nil, List.take_nil, List.isEmpty_nil, if_true]
    rw [hr]
    refine ⟨by decide, by decide, by decide, ?_, ?_, fun _ => rfl⟩
    · intro c hc
      have h1 : ("untitled" : String).toList.head? = some 'u' := by decide
      rw [h1] at hc
      cases hc
      decide
    · intro _ c hc
      have h1 : ("untitled" : String).toList.getLast? = some 'd' := by decide
      rw [h1] at hc
      cases hc
      decide
  · have hne : ¬ (((stripWS (collapseWS s.toList)).map badRepl).take 150).isEmpty = true := by
      simp only [List.isEmpty_iff]
      intro h0
      rcases List.take_eq_nil_iff.mp h0 with h1 | h1
      · exact absurd h1 (by decide)
      · exact hm0 (List.map_eq_nil_iff.mp h1)
    have hr : (sanitize_filename s).toList
        = ((stripWS (collapseWS s.toList)).map badRepl).take 150 := by
      simp only [sanitize_filename]
      rw [if_neg hne]
      rfl
    rw [hr]
    refine ⟨List.length_take_le _ _, ?_, ?_, ?_, ?_, fun h0 => absurd h0 hm0⟩
    · intro c hc
      rcases List.mem_map.mp (List.take_subset _ _ hc) with ⟨a, _, rfl⟩
      exact isBadChar_badRepl a
    · exact noTwoWS_take 150 _
        (noTwoWS_map_badRepl _ (noTwoWS_stripWS _ (noTwoWS_collapseWS _)))
    · intro c hc
      rw [head?_take150, List.head?_map] at hc
      rcases Option.map_eq_some'.mp hc with ⟨a, ha, rfl⟩
      rw [isPySpace_badRepl]
      exact stripWS_head _ a ha
    · intro hlen c hc
      rw [List.take_of_length_le (by simpa using hlen), getLast?_map_badRepl] at hc
      rcases Option.map_eq_some'.mp hc with ⟨a, ha, rfl⟩
      rw [isPySpace_badRepl]
      exact stripWS_getLast _ a ha

/-- Claim C9 witness: the amended theorem applied to the concrete input
" a  b:c " (whose sanitization is "a b_c"). -/
theorem c9_amended_witness : isPySpace 'c' = false :=
  (c9_amended " a  b:c ").2.2.2.2.1 (by decide) 'c' (by decide)

/-! ### Lemmas about the retry loop -/

theorem retryLoop_run (backend : Nat → Bool) (wait : ℚ) :
    ∀ (k n fuel : Nat), (∀ i, i < k → backend (n + i) = false) → backend (n + k) = true →
      k < fuel →
      retryLoop backend wait n fuel =
        { ok := true, attempts := k + 1,
          sleeps := (List.range k).map (fun i => wait * 2 ^ (n + i)) } := by
  intro k
  induction k with
  | zero =>
    intro n fuel _ hs hf
    match fuel, hf with
    | f + 1, _ =>
      have hb : backend n = true := by simpa using hs
      simp [retryLoop, hb]
  | succ k ih =>
    intro n fuel hb hs hf
    match fuel, hf with
    | f + 1, hf =>
      have hb0 : backend n = false := by simpa using hb 0 (Nat.succ_pos k)
      have hfne : f ≠ 0 := by omega
      have ih' := ih (n + 1) f
        (fun i hi => by
          have h := hb (i + 1) (by omega)
          rw [show n + 1 + i = n + (i + 1) from by omega]
          exact h)
        (by rw [show n + 1 + k = n + (k + 1) from by omega]; exact hs)
        (by omega)
      have hsl : (List.range (k + 1)).map (fun i => wait * 2 ^ (n + i))
          = wait * 2 ^ n :: (List.range k).map (fun i => wait * 2 ^ (n + 1 + i)) := by
        simp only [List.range_succ_eq_map, List.map_cons, List.map_map, Function.comp,
          Nat.add_zero]
        refine congrArg (List.cons (wait * 2 ^ n)) ?_
        refine List.map_congr_left ?_
        intro i _
        have hni : n + Nat.succ i = n + 1 + i := by omega
        simp [Function.comp_apply, hni]
      simp only [retryLoop, hb0, Bool.false_eq_true, if_false, hfne, ite_false]
      rw [ih', hsl]

/-- Claim C6: for a backend stub that fails the first k < max_retries
attempts and then succeeds, `synthesize_with_retry` returns True, and the
backoff sleeps performed are exactly `retry_wait * 2 ^ (i - 1)` for
`i = 1..k` (reindexed here as `retry_wait * 2 ^ i` for `i = 0..k-1`), so
the total slept time is their sum. -/
theorem c6_retry_backoff :
    ∀ (backend : Nat → Bool) (max_retries : Nat) (retry_wait : ℚ) (k : Nat),
      (∀ i, i < k → backend i = false) → backend k = true → k < max_retries →
      (synthesize_with_retry backend max_retries retry_wait).ok = true ∧
      (synthesize_with_retry backend max_retries retry_wait).sleeps
          = (List.range k).map (fun i => retry_wait * 2 ^ i) ∧
      (synthesize_with_retry backend max_retries retry_wait).sleeps.sum
          = ((List.range k).map (fun i => retry_wait * 2 ^ i)).sum := by
  intro backend m w k hb hs hk
  have h := retryLoop_run backend w k 0 (m + 1)
    (fun i hi => by simpa using hb i hi) (by simpa using hs) (by omega)
  unfold synthesize_with_retry
  rw [h]
  simp

/-- Claim C6 witness: the backend stub failing exactly the first two
attempts, with max_retries = 3 and retry_wait = 7: synthesis succeeds and
the sleeps are 7 and 14 seconds. -/
theorem c6_retry_backoff_witness :
    (∀ i, i < 2 → c6backend i = false) ∧
    ((synthesize_with_retry c6backend 3 7).ok = true ∧
     (synthesize_with_retry c6backend 3 7).sleeps
         = (List.range 2).map (fun i => (7 : ℚ) * 2 ^ i) ∧
     (synthesize_with_retry c6backend 3 7).sleeps.sum
         = ((List.range 2).map (fun i => (7 : ℚ) * 2 ^ i)).sum) :=
  ⟨by decide, c6_retry_backoff c6backend 3 7 2 (by decide) (by decide) (by decide)⟩

theorem retryLoop_bounds (backend : Nat → Bool) (wait : ℚ) :
    ∀ (fuel n : Nat), 1 ≤ fuel →
      (1 ≤ (retryLoop backend wait n fuel).attempts ∧
        (retryLoop backend wait n fuel).attempts ≤ fuel) ∧
      ((retryLoop backend wait n fuel).ok = true →
        backend (n + ((retryLoop backend wait n fuel).attempts - 1)) = true ∧
        ∀ j, j < (retryLoop backend wait n fuel).attempts - 1 → backend (n + j) = false) ∧
      ((retryLoop backend wait n fuel).ok = false →
        (retryLoop backend wait n fuel).attempts = fuel ∧
        ∀ j, j < fuel → backend (n + j) = false) ∧
      (retryLoop backend wait n fuel).sleeps.length
          = (retryLoop backend wait n fuel).attempts - 1 := by
  intro fuel
  induction fuel with
  | zero => intro n h; omega
  | succ f ih =>
    intro n _
    by_cases hb : backend n = true
    · simp only [retryLoop, hb, if_true]
      refine ⟨⟨by omega, by omega⟩, fun _ => ⟨by simpa using hb, fun j hj => by omega⟩,
        fun hc => by simp at hc, by simp⟩
    · have hb0 : backend n = false := by simpa using hb
      by_cases hf : f = 0
      · subst hf
        simp only [retryLoop, hb0, Bool.false_eq_true, if_false, if_true]
        refine ⟨⟨by omega, by omega⟩, fun hc => by simp at hc, fun _ => ⟨by simp, ?_⟩, by simp⟩
        intro j hj
        have hj0 : j = 0 := by omega
        subst hj0
        simpa using hb0
      · have H := ih (n + 1) (by omega)
        simp only [retryLoop, hb0, Bool.false_eq_true, if_false, hf, ite_false]
        refine ⟨⟨by omega, by omega⟩, ?_, ?_, ?_⟩
        · intro hok
          have H2 := H.2.1 hok
          have ha1 : 1 ≤ (retryLoop backend wait (n + 1) f).attempts := H.1.1
          constructor
          · rw [show n + ((retryLoop backend wait (n + 1) f).attempts + 1 - 1)
                = n + 1 + ((retryLoop backend wait (n + 1) f).attempts - 1) from by omega]
            exact H2.1
          · intro j hj
            cases j with
            | zero => simpa using hb0
            | succ j' =>
              have := H2.2 j' (by omega)
              rw [show n + (j' + 1) = n + 1 + j' from by omega]
              exact this
        · intro hok
          have H3 := H.2.2.1 hok
          constructor
          · omega
          · intro j hj
            cases j with
            | zero => simpa using hb0
            | succ j' =>
              have := H3.2 j' (by omega)
              rw [show n + (j' + 1) = n + 1 + j' from by omega]
              exact this
        · have := H.2.2.2
          have ha1 : 1 ≤ (retryLoop backend wait (n + 1) f).attempts := H.1.1
          simp only [List.length_cons]
          omega

/-- Claim C10: `synthesize_with_retry` makes at least one and at most
`max_retries + 1` attempts; when it returns True, the last attempt is the
first successful one (all earlier attempts failed); it re-raises (ok =
false) exactly when all `max_retries + 1` attempts fail, in which case it
made exactly `max_retries + 1` attempts; and the number of backoff sleeps
is one less than the number of attempts (a sleep happens only between two
consecutive failed attempts, never after the final failure). -/
theorem c10_retry_bounds :
    ∀ (backend : Nat → Bool) (max_retries : Nat) (retry_wait : ℚ),
      (1 ≤ (synthesize_with_retry backend max_retries retry_wait).attempts ∧
        (synthesize_with_retry backend max_retries retry_wait).attempts ≤ max_retries + 1) ∧
      ((synthesize_with_retry backend max_retries retry_wait).ok = true →
        backend ((synthesize_with_retry backend max_retries retry_wait).attempts - 1) = true ∧
        ∀ j, j < (synthesize_with_retry backend max_retries retry_wait).attempts - 1 →
          backend j = false) ∧
      ((synthesize_with_retry backend max_retries retry_wait).ok = false ↔
        ∀ j, j ≤ max_retries → backend j = false) ∧
      ((synthesize_with_retry backend max_retries retry_wait).ok = false →
        (synthesize_with_retry backend max_retries retry_wait).attempts = max_retries + 1) ∧
      (synthesize_with_retry backend max_retries retry_wait).sleeps.length
          = (synthesize_with_retry backend max_retries retry_wait).attempts - 1 := by
  intro backend m w
  have heq : retryLoop backend w 0 (m + 1) = synthesize_with_retry backend m w := rfl
  have H := retryLoop_bounds backend w (m + 1) 0 (by omega)
  rw [heq] at H
  simp only [Nat.zero_add] at H
  refine ⟨H.1, H.2.1, ?_, fun hok => (H.2.2.1 hok).1, H.2.2.2⟩
  constructor
  · intro hok j hj
    exact (H.2.2.1 hok).2 j (by omega)
  · intro hall
    cases hok : (synthesize_with_retry backend m w).ok with
    | false => rfl
    | true =>
      have H2 := H.2.1 hok
      have hble : (synthesize_with_retry backend m w).attempts - 1 ≤ m := by
        have := H.1.2
        omega
      have hcontra := hall _ hble
      rw [H2.1] at hcontra
      simp at hcontra

/-- Claim C10 witness: the always-failing backend with max_retries = 1
re-raises after exactly 2 attempts. -/
theorem c10_retry_bounds_witness :
    (synthesize_with_retry (fun _ => false) 1 3).ok = false ∧
    (synthesize_with_retry (fun _ => false) 1 3).attempts = 2 := by
  have h := c10_retry_bounds (fun _ => false) 1 3
  have hok : (synthesize_with_retry (fun _ => false) 1 3).ok = false :=
    h.2.2.1.mpr (fun j _ => rfl)
  exact ⟨hok, h.2.2.2.1 hok⟩

/-! ### Lemmas about the chapter extractor -/

theorem rangeAppend : ∀ (b a : Nat), List.range a ++ List.range' a b = List.range (a + b) := by
  intro b
  induction b with
  | zero => intro a; simp [List.range']
  | succ b ih =>
    intro a
    have h1 : List.range' a (b + 1) = a :: List.range' (a + 1) b := rfl
    rw [h1, show List.range a ++ a :: List.range' (a + 1) b
        = (List.range a ++ [a]) ++ List.range' (a + 1) b from by simp,
      ← List.range_succ, ih (a + 1), show a + 1 + b = a + (b + 1) from by omega]

theorem emitSections_orders : ∀ (hs : List Heading) (i ord : Nat),
    (emitSections hs i ord).map Chapter.order
      = List.range' ord (emitSections hs i ord).length := by
  intro hs
  induction hs with
  | nil => intro i ord; simp [emitSections]
  | cons h rest ih =>
    intro i ord
    by_cases he : h.sectionText = ""
    · simp only [emitSections, he, if_true]
      exact ih (i + 1) ord
    · simp only [emitSections, he, if_false, List.map_cons, List.length_cons]
      rw [ih (i + 1) (ord + 1)]
      rfl

theorem processItem_orders (so : Bool) (it : Item) (st : List Chapter × Nat)
    (h : st.1.map Chapter.order = List.range st.2) :
    (processItem so it st).1.map Chapter.order = List.range (processItem so it st).2 := by
  unfold processItem
  by_cases hs : so ∧ it.headings ≠ []
  · rw [if_pos hs]
    by_cases hc : 0 < st.2 + (emitSections it.headings 1 st.2).length ∧
        lastTitleTruthy (st.1 ++ emitSections it.headings 1 st.2) = true
    · rw [if_pos hc]
      show List.map Chapter.order (st.1 ++ emitSections it.headings 1 st.2)
          = List.range (st.2 + (emitSections it.headings 1 st.2).length)
      rw [List.map_append, h, emitSections_orders]
      exact rangeAppend _ _
    · rw [if_neg hc]
      show List.map Chapter.order (st.1 ++ emitSections it.headings 1 st.2 ++
            [wholeChapter it (st.2 + (emitSections it.headings 1 st.2).length)])
          = List.range (st.2 + (emitSections it.headings 1 st.2).length + 1)
      rw [List.map_append, List.map_append, h, emitSections_orders, rangeAppend]
      simp only [wholeChapter, List.map_cons, List.map_nil]
      rw [← List.range_succ]
  · rw [if_neg hs]
    show List.map Chapter.order (st.1 ++ [wholeChapter it st.2]) = List.range (st.2 + 1)
    rw [List.map_append, h]
    simp only [wholeChapter, List.map_cons, List.map_nil]
    rw [← List.range_succ]

theorem exLoop_orders (docs : List Item) (so : Bool) :
    ∀ (fs seen : List String) (st : List Chapter × Nat),
      st.1.map Chapter.order = List.range st.2 →
      (exLoop docs so fs seen st).1.map Chapter.order
        = List.range (exLoop docs so fs seen st).2 := by
  intro fs
  induction fs with
  | nil => intro seen st h; simpa [exLoop] using h
  | cons f fs ih =>
    intro seen st h
    simp only [exLoop]
    cases hd : docsGet docs f with
    | none => exact ih seen st h
    | some it =>
      by_cases hseen : f ∈ seen
      · simp only [hseen, if_true]
        exact ih seen st h
      · simp only [hseen, if_false]
        exact ih (f :: seen) (processItem so it st) (processItem_orders so it st h)

theorem enumFrom_map_fst {α : Type} : ∀ (l : List α) (k : Nat),
    (List.enumFrom k l).map Prod.fst = List.range' k l.length := by
  intro l
  induction l with
  | nil => intro k; rfl
  | cons a l ih =>
    intro k
    simp only [List.enumFrom, List.map_cons, List.length_cons]
    rw [ih (k + 1)]
    rfl

theorem enumFrom_length {α : Type} : ∀ (l : List α) (k : Nat),
    (List.enumFrom k l).length = l.length := by
  intro l
  induction l with
  | nil => intro k; rfl
  | cons a l ih =>
    intro k
    simp only [List.enumFrom, List.length_cons]
    rw [ih (k + 1)]

/-- Claim C4: for every container with a non-empty declared reading order,
the chapters returned by `extract_chapters` carry orders 0, 1, 2, ... in
emission order — unique, strictly increasing, starting at 0. -/
theorem c4_orders : ∀ (bk : Book) (so : Bool), bk.spineNames ≠ [] →
    (extract_chapters bk so).map Chapter.order
      = List.range (extract_chapters bk so).length := by
  intro bk so _
  unfold extract_chapters
  by_cases hemp : (exLoop bk.docs so bk.spineNames [] ([], 0)).1 = []
  · simp only [hemp, if_true]
    rw [List.map_map, List.length_map]
    have hcomp : (Chapter.order ∘ fun p : Nat × Item =>
        { order := p.1, title := guess_title p.2, text := p.2.wholeText : Chapter })
        = Prod.fst := rfl
    rw [hcomp]
    show (List.enumFrom 0 (dictOf bk.docs)).map Prod.fst
        = List.range (List.enumFrom 0 (dictOf bk.docs)).length
    rw [enumFrom_map_fst, enumFrom_length, List.range_eq_range']
  · simp only [hemp, if_false]
    have hmap := exLoop_orders bk.docs so bk.spineNames [] ([], 0) (by simp)
    have hlen : (exLoop bk.docs so bk.spineNames [] ([], 0)).1.length
        = (exLoop bk.docs so bk.spineNames [] ([], 0)).2 := by
      have := congrArg List.length hmap
      simpa using this
    rw [hmap, hlen]

/-- Claim C4 witness: the one-document container with a non-empty spine. -/
theorem c4_orders_witness :
    (extract_chapters c4Book false).map Chapter.order
      = List.range (extract_chapters c4Book false).length :=
  c4_orders c4Book false (by decide)

theorem exLoop_cons_none {docs : List Item} {so : Bool} {f : String} {fs seen : List String}
    {st : List Chapter × Nat} (hd : docsGet docs f = none) :
    exLoop docs so (f :: fs) seen st = exLoop docs so fs seen st := by
  simp only [exLoop, hd]

theorem exLoop_cons_seen {docs : List Item} {so : Bool} {f : String} {fs seen : List String}
    {st : List Chapter × Nat} (hseen : f ∈ seen) :
    exLoop docs so (f :: fs) seen st = exLoop docs so fs seen st := by
  cases hd : docsGet docs f with
  | none => simp [exLoop, hd]
  | some it => simp [exLoop, hd, hseen]

theorem exLoop_cons_proc {docs : List Item} {so : Bool} {f : String} {fs seen : List String}
    {st : List Chapter × Nat} {it : Item} (hd : docsGet docs f = some it)
    (hseen : f ∉ seen) :
    exLoop docs so (f :: fs) seen st = exLoop docs so fs (f :: seen) (processItem so it st) := by
  simp [exLoop, hd, hseen]

theorem mem_dedupFirstAux : ∀ (fs seen : List String) (a : String),
    a ∈ dedupFirstAux fs seen → a ∉ seen := by
  intro fs
  induction fs with
  | nil => intro seen a h; simp [dedupFirstAux] at h
  | cons f fs ih =>
    intro seen a h
    simp only [dedupFirstAux] at h
    by_cases hf : f ∈ seen
    · rw [if_pos hf] at h
      exact ih seen a h
    · rw [if_neg hf] at h
      rcases List.mem_cons.mp h with rfl | h'
      · exact hf
      · intro ha
        exact ih (f :: seen) a h' (List.mem_cons_of_mem f ha)

theorem dedupFirstAux_congr : ∀ (fs s₁ s₂ : List String),
    (∀ a, a ∈ s₁ ↔ a ∈ s₂) → dedupFirstAux fs s₁ = dedupFirstAux fs s₂ := by
  intro fs
  induction fs with
  | nil => intro s₁ s₂ _; rfl
  | cons f fs ih =>
    intro s₁ s₂ hequiv
    simp only [dedupFirstAux]
    by_cases h1 : f ∈ s₁
    · rw [if_pos h1, if_pos ((hequiv f).mp h1)]
      exact ih _ _ hequiv
    · have h2 : f ∉ s₂ := fun h => h1 ((hequiv f).mpr h)
      rw [if_neg h1, if_neg h2,
        ih (f :: s₁) (f :: s₂) (by intro a; simp [List.mem_cons, hequiv a])]

theorem dedupFirstAux_cons (x : String) : ∀ (fs seen : List String),
    dedupFirstAux fs (x :: seen) = (dedupFirstAux fs seen).filter (fun y => y != x) := by
  intro fs
  induction fs with
  | nil => intro seen; rfl
  | cons f fs ih =>
    intro seen
    simp only [dedupFirstAux]
    by_cases hf : f ∈ seen
    · rw [if_pos (List.mem_cons_of_mem x hf), if_pos hf]
      exact ih seen
    · by_cases hfx : f = x
      · subst hfx
        rw [if_pos (List.mem_cons_self f seen), if_neg hf, List.filter_cons]
        simp only [bne_self_eq_false, Bool.false_eq_true, if_false]
        rw [ih seen, List.filter_filter]
        congr 1
        funext a
        simp [Bool.and_self]
      · have hx : f ∉ x :: seen := by
          simp only [List.mem_cons]
          rintro (h | h)
          · exact hfx h
          · exact hf h
        rw [if_neg hx, if_neg hf, List.filter_cons]
        simp only [show (f != x) = true from by simpa using hfx, if_true]
        refine congrArg (List.cons f) ?_
        rw [dedupFirstAux_congr fs (f :: x :: seen) (x :: f :: seen)
            (by intro a; simp [List.mem_cons]; tauto),
          ih (f :: seen)]

theorem exLoop_erase_unresolved (docs : List Item) (so : Bool) (x : String)
    (hx : docsGet docs x = none) :
    ∀ (fs seen : List String) (st : List Chapter × Nat),
      exLoop docs so fs seen st = exLoop docs so (fs.filter (fun y => y != x)) seen st := by
  intro fs
  induction fs with
  | nil => intro seen st; rfl
  | cons f fs ih =>
    intro seen st
    by_cases hfx : f = x
    · subst hfx
      rw [List.filter_cons]
      simp only [bne_self_eq_false, Bool.false_eq_true, if_false]
      rw [exLoop_cons_none hx]
      exact ih seen st
    · rw [List.filter_cons]
      simp only [show (f != x) = true from by simpa using hfx, if_true]
      cases hd : docsGet docs f with
      | none =>
        rw [exLoop_cons_none hd, exLoop_cons_none hd]
        exact ih seen st
      | some it =>
        by_cases hseen : f ∈ seen
        · rw [exLoop_cons_seen hseen, exLoop_cons_seen hseen]
          exact ih seen st
        · rw [exLoop_cons_proc hd hseen, exLoop_cons_proc hd hseen]
          exact ih (f :: seen) (processItem so it st)

theorem exLoop_dedup (docs : List Item) (so : Bool) :
    ∀ (fs seen : List String) (st : List Chapter × Nat),
      exLoop docs so fs seen st = exLoop docs so (dedupFirstAux fs seen) seen st := by
  intro fs
  induction fs with
  | nil => intro seen st; rfl
  | cons f fs ih =>
    intro seen st
    simp only [dedupFirstAux]
    by_cases hseen : f ∈ seen
    · rw [if_pos hseen]
      cases hd : docsGet docs f with
      | none =>
        rw [exLoop_cons_none hd]
        exact ih seen st
      | some it =>
        rw [exLoop_cons_seen hseen]
        exact ih seen st
    · rw [if_neg hseen]
      cases hd : docsGet docs f with
      | none =>
        rw [exLoop_cons_none hd, exLoop_cons_none hd, dedupFirstAux_cons,
          ← exLoop_erase_unresolved docs so f hd]
        exact ih seen st
      | some it =>
        rw [exLoop_cons_proc hd hseen, exLoop_cons_proc hd hseen]
        exact ih (f :: seen) (processItem so it st)

/-- Claim C5: a reading order listing the same content-unit identifier
more than once extracts exactly as the deduplicated reading order does
(first occurrence kept): the unit is processed exactly once — one Chapter
or one heading-split group — and every later occurrence is skipped. -/
theorem c5_dedup : ∀ (spine : List String) (docs : List Item) (so : Bool),
    extract_chapters { spineNames := spine, docs := docs } so
      = extract_chapters { spineNames := dedupFirst spine, docs := docs } so := by
  intro spine docs so
  simp only [extract_chapters, dedupFirst]
  rw [← exLoop_dedup docs so spine [] ([], 0)]

/-- Claim C2 (code bug): on a container whose first unit emits a heading
section and whose second unit's headings yield zero non-empty sections,
the extractor emits only the first unit's section chapter — the
whole-unit fallback for the second unit (whose whole text "whole b" is
non-empty) is skipped, because the guard at line 102
(`order > 0 and chapters and chapters[-1]["title"]`) inspects the global
chapter list instead of the sections created for this item, contradicting
its own comment ("If we created sections for this item") and the spec's
fallback-monotonicity property. -/
theorem c2_code_eval :
    extract_chapters c2Book true = [{ order := 0, title := "Intro", text := "intro text" }] ∧
    (extract_chapters c2Book true).all (fun c => c.text != c2ItemB.wholeText) = true := by
  constructor
  · decide
  · decide

theorem emitSections_text_ne : ∀ (hs : List Heading) (i ord : Nat) (c : Chapter),
    c ∈ emitSections hs i ord → c.text ≠ "" := by
  intro hs
  induction hs with
  | nil => intro i ord c hc; simp [emitSections] at hc
  | cons h rest ih =>
    intro i ord c hc
    by_cases he : h.sectionText = ""
    · simp only [emitSections, he, if_true] at hc
      exact ih (i + 1) ord c hc
    · simp only [emitSections, he, if_false, List.mem_cons] at hc
      rcases hc with rfl | hc
      · simpa using he
      · exact ih (i + 1) (ord + 1) c hc

theorem mem_dictInsert (m : List Item) (it x : Item) (h : x ∈ dictInsert m it) :
    x ∈ m ∨ x = it := by
  unfold dictInsert at h
  by_cases ha : m.any (fun j => j.file_name == it.file_name)
  · rw [if_pos ha] at h
    rcases List.mem_map.mp h with ⟨j, hj, hx⟩
    by_cases hjf : j.file_name == it.file_name
    · right
      rw [if_pos hjf] at hx
      exact hx.symm
    · left
      rw [if_neg hjf] at hx
      exact hx ▸ hj
  · rw [if_neg ha] at h
    rcases List.mem_append.mp h with h | h
    · exact Or.inl h
    · right
      simpa using h

theorem mem_foldl_dictInsert : ∀ (docs acc : List Item) (x : Item),
    x ∈ List.foldl dictInsert acc docs → x ∈ acc ∨ x ∈ docs := by
  intro docs
  induction docs with
  | nil => intro acc x h; exact Or.inl h
  | cons d ds ih =>
    intro acc x h
    rcases ih (dictInsert acc d) x h with h1 | h1
    · rcases mem_dictInsert acc d x h1 with h2 | h2
      · exact Or.inl h2
      · exact Or.inr (h2 ▸ List.mem_cons_self d ds)
    · exact Or.inr (List.mem_cons_of_mem d h1)

theorem mem_dictOf (docs : List Item) (x : Item) (h : x ∈ dictOf docs) : x ∈ docs := by
  rcases mem_foldl_dictInsert docs [] x h with h1 | h1
  · simp at h1
  · exact h1

theorem docsGet_mem (docs : List Item) (f : String) (it : Item)
    (h : docsGet docs f = some it) : it ∈ docs :=
  mem_dictOf docs it (List.mem_of_find?_eq_some h)

theorem mem_enumFrom_snd {α : Type} : ∀ (l : List α) (k : Nat) (p : Nat × α),
    p ∈ List.enumFrom k l → p.2 ∈ l := by
  intro l
  induction l with
  | nil => intro k p h; simp [List.enumFrom] at h
  | cons a l ih =>
    intro k p h
    simp only [List.enumFrom, List.mem_cons] at h
    rcases h with rfl | h
    · exact List.mem_cons_self a l
    · exact List.mem_cons_of_mem a (ih (k + 1) p h)

theorem processItem_text_ne (so : Bool) (it : Item) (st : List Chapter × Nat)
    (hit : it.wholeText ≠ "") (h : ∀ c ∈ st.1, c.text ≠ "") :
    ∀ c ∈ (processItem so it st).1, c.text ≠ "" := by
  unfold processItem
  by_cases hs : so ∧ it.headings ≠ []
  · rw [if_pos hs]
    by_cases hc : 0 < st.2 + (emitSections it.headings 1 st.2).length ∧
        lastTitleTruthy (st.1 ++ emitSections it.headings 1 st.2) = true
    · rw [if_pos hc]
      intro c hcmem
      rcases List.mem_append.mp hcmem with h1 | h1
      · exact h c h1
      · exact emitSections_text_ne it.headings 1 st.2 c h1
    · rw [if_neg hc]
      intro c hcmem
      rcases List.mem_append.mp hcmem with h1 | h1
      · rcases List.mem_append.mp h1 with h2 | h2
        · exact h c h2
        · exact emitSections_text_ne it.headings 1 st.2 c h2
      · rcases List.mem_singleton.mp h1 with rfl
        simpa [wholeChapter] using hit
  · rw [if_neg hs]
    intro c hcmem
    rcases List.mem_append.mp hcmem with h1 | h1
    · exact h c h1
    · rcases List.mem_singleton.mp h1 with rfl
      simpa [wholeChapter] using hit

theorem exLoop_text_ne (docs : List Item) (so : Bool)
    (hdocs : ∀ it ∈ docs, it.wholeText ≠ "") :
    ∀ (fs seen : List String) (st : List Chapter × Nat),
      (∀ c ∈ st.1, c.text ≠ "") →
      ∀ c ∈ (exLoop docs so fs seen st).1, c.text ≠ "" := by
  intro fs
  induction fs with
  | nil => intro seen st h; simpa [exLoop] using h
  | cons f fs ih =>
    intro seen st h
    cases hd : docsGet docs f with
    | none =>
      rw [exLoop_cons_none hd]
      exact ih seen st h
    | some it =>
      by_cases hseen : f ∈ seen
      · rw [exLoop_cons_seen hseen]
        exact ih seen st h
      · rw [exLoop_cons_proc hd hseen]
        exact ih (f :: seen) (processItem so it st)
          (processItem_text_ne so it st (hdocs it (docsGet_mem docs f it hd)) h)

/-- Claim C3 counterexample: a container whose single unit's
whole-document text normalizes to empty makes `extract_chapters` emit a
Chapter with empty text — the whole-unit fallback (lines 105-113) emits
unconditionally, with no emptiness check. -/
theorem c3_counterexample :
    extract_chapters c3Book false = [{ order := 0, title := "e", text := "" }] ∧
    (extract_chapters c3Book false).all (fun c => c.text != "") = false := by
  constructor
  · decide
  · decide

/-- Claim C3 (amended): only the whole-unit fallback can emit a Chapter
with empty normalized text (heading-split sections are always non-empty);
in particular, whenever every unit's whole-document normalization is
non-empty, `extract_chapters` never emits a Chapter whose text is empty. -/
theorem c3_amended : ∀ (bk : Book) (so : Bool),
    (∀ it ∈ bk.docs, it.wholeText ≠ "") →
    ∀ c ∈ extract_chapters bk so, c.text ≠ "" := by
  intro bk so hdocs c hc
  unfold extract_chapters at hc
  by_cases hemp : (exLoop bk.docs so bk.spineNames [] ([], 0)).1 = []
  · rw [if_pos hemp] at hc
    rcases List.mem_map.mp hc with ⟨p, hp, rfl⟩
    exact hdocs p.2 (mem_dictOf bk.docs p.2 (mem_enumFrom_snd (dictOf bk.docs) 0 p hp))
  · rw [if_neg hemp] at hc
    exact exLoop_text_ne bk.docs so hdocs bk.spineNames [] ([], 0) (by simp) c hc

/-- Claim C3 witness: the amended theorem on a one-unit container with
non-empty whole text. -/
theorem c3_amended_witness : ({ order := 0, title := "w2", text := "hello" } : Chapter).text ≠ "" :=
  c3_amended c3wBook false (by decide) _ (by decide)

/-! ### Title inference -/

theorem hCascade_eq (s : Soup) : hCascade s = firstHeading123 s := by
  unfold hCascade firstHeading123
  cases hp1 : headProbe s.h1 with
  | some t => simp [List.filterMap_cons, hp1, Option.orElse]
  | none =>
    cases hp2 : headProbe s.h2 with
    | some t => simp [List.filterMap_cons, hp1, hp2, Option.orElse]
    | none =>
      cases hp3 : headProbe s.h3 <;> simp [List.filterMap_cons, hp1, hp2, hp3, Option.orElse]

/-- Claim C7: `guess_title` is total (it is a Lean function returning a
string — the source's try/except means a parse error falls to the
filename branch, modelled by `parseOk = false`), and it agrees everywhere
with the spec's priority order: (1) the declared title string if
non-empty (stripped), otherwise (2) the first heading among levels 1-3
with non-empty text, otherwise (3) the identifier with path and extension
stripped and underscores replaced by spaces; parse errors fall to (3). -/
theorem c7_guess_title : ∀ it : Item, guess_title it = infer_title_spec it := by
  intro it
  unfold guess_title infer_title_spec titleFromSoup
  cases hp : it.parseOk with
  | false => simp
  | true =>
    cases ht : it.soup.titleString with
    | none =>
      simp only [if_true, hCascade_eq]
      cases hfh : firstHeading123 it.soup <;> simp [hfh]
    | some t =>
      by_cases htE : t = ""
      · simp only [htE, if_true, ne_eq, not_true_eq_false, if_false, hCascade_eq]
        cases hfh : firstHeading123 it.soup <;> simp [hfh]
      · simp [htE]

/-! ### Orchestrator: written files and playlist -/

theorem prepGo_fe_false (fe : String → Bool) : ∀ (cs : List Chapter) (idx : Nat) (t : RTask),
    t ∈ (prepGo fe cs idx).2 → fe t.fname = false := by
  intro cs
  induction cs with
  | nil => intro idx t ht; simp [prepGo] at ht
  | cons c cs ih =>
    intro idx t ht
    simp only [prepGo] at ht
    by_cases hfe : fe (chapFname idx c) = true
    · rw [if_pos hfe] at ht
      exact ih (idx + 1) t ht
    · rw [if_neg hfe] at ht
      simp only [List.mem_cons] at ht
      rcases ht with rfl | ht
      · simpa using hfe
      · exact ih (idx + 1) t ht

/-- Claim C1 counterexample: a serial run over two chapters where the
second chapter's destination file already exists and the first is
synthesized successfully. The playlist lists "002 - B.mp3" before
"001 - A.mp3" — skipped pre-existing files are appended to `written`
during task preparation, before any synthesis result, and `main` never
sorts `written` before `build_playlist` — so the playlist is not in
chapter/track sequence order. -/
theorem c1_counterexample :
    playlistLines (runWritten (prepTasks c1Chapters c1Fe).1 (prepTasks c1Chapters c1Fe).2
        (fun _ => true)) = some ["002 - B.mp3", "001 - A.mp3"] ∧
    (playlistLines (runWritten (prepTasks c1Chapters c1Fe).1 (prepTasks c1Chapters c1Fe).2
        (fun _ => true)) == some ["001 - A.mp3", "002 - B.mp3"]) = false := by
  constructor
  · decide
  · decide

/-- Claim C1 (amended): for every run (any completion order that is a
permutation of the prepared tasks), the playlist file lists exactly the
files actually written, one name per line — pre-existing-and-skipped
files included, permanently failed chapters excluded — but its order is:
skipped pre-existing files first in chapter order, then newly synthesized
files in task completion order; it is not, in general, sorted by
chapter/track sequence. -/
theorem c1_amended : ∀ (chapters : List Chapter) (fe : String → Bool) (ok : Nat → Bool)
    (completed : List RTask),
    completed.Perm (prepTasks chapters fe).2 →
    (∀ f : String,
      f ∈ runWritten (prepTasks chapters fe).1 completed ok ↔
        (f ∈ (prepTasks chapters fe).1 ∨
          ∃ t, t ∈ (prepTasks chapters fe).2 ∧ ok t.idx = true ∧ t.fname = f)) ∧
    (runWritten (prepTasks chapters fe).1 completed ok ≠ [] →
      playlistLines (runWritten (prepTasks chapters fe).1 completed ok)
        = some (runWritten (prepTasks chapters fe).1 completed ok)) := by
  intro chapters fe ok completed hperm
  constructor
  · intro f
    simp only [runWritten, List.mem_append, List.mem_map, List.mem_filter, hperm.mem_iff]
    constructor
    · rintro (h | ⟨t, ⟨ht, hok⟩, hf⟩)
      · exact Or.inl h
      · exact Or.inr ⟨t, ht, hok, hf⟩
    · rintro (h | ⟨t, ht, hok, hf⟩)
      · exact Or.inl h
      · exact Or.inr ⟨t, ⟨ht, hok⟩, hf⟩
  · intro h
    simp [playlistLines, h]

/-- Claim C1 witness: the amended theorem on a one-chapter serial run
with no pre-existing files: the synthesized file is in the playlist. -/
theorem c1_amended_witness :
    "001 - A.mp3" ∈ runWritten (prepTasks c1wChapters (fun _ => false)).1
      (prepTasks c1wChapters (fun _ => false)).2 (fun _ => true) :=
  ((c1_amended c1wChapters (fun _ => false) (fun _ => true)
      (prepTasks c1wChapters (fun _ => false)).2 (List.Perm.refl _)).1 "001 - A.mp3").mpr
    (Or.inr ⟨{ idx := 1, title := "A", text := "aaa", fname := "001 - A.mp3" },
      by decide, by decide, rfl⟩)

/-- Claim C8: a chapter whose destination file already exists never
becomes a render task (so no synthesis call and no tag write happens for
it — both happen only inside the worker, lines 277-294), yet its file is
still in the written set and hence the playlist; and rerunning the
orchestrator against an output directory already containing the files
written by a first run prepares no task for any file already present, so
no duplicate synthesis call occurs. -/
theorem c8_idempotent : ∀ (chapters : List Chapter) (fe : String → Bool) (ok : Nat → Bool)
    (completed : List RTask),
    (∀ t ∈ (prepTasks chapters fe).2, fe t.fname = false) ∧
    (∀ f ∈ (prepTasks chapters fe).1,
      f ∈ runWritten (prepTasks chapters fe).1 completed ok) ∧
    (∀ t ∈ (prepTasks chapters (fun f => fe f ||
        decide (f ∈ runWritten (prepTasks chapters fe).1 completed ok))).2,
      t.fname ∉ runWritten (prepTasks chapters fe).1 completed ok) := by
  intro chapters fe ok completed
  refine ⟨fun t ht => prepGo_fe_false fe chapters 1 t ht,
    fun f hf => List.mem_append_left _ hf, ?_⟩
  intro t ht hmem
  have h := prepGo_fe_false _ chapters 1 t ht
  simp only [Bool.or_eq_false_iff, decide_eq_false_iff_not] at h
  exact h.2 hmem

/-- Claim C8 witness: in a two-chapter run where chapter 2's file
pre-exists, the prepared task (chapter 1) targets a file that does not
already exist. -/
theorem c8_idempotent_witness : c8Fe "001 - A.mp3" = false :=
  (c8_idempotent c8Chapters c8Fe (fun _ => true) []).1
    { idx := 1, title := "A", text := "aaa", fname := "001 - A.mp3" } (by decide)
